/-
Verification of the secrets-bws CLI helper library and commands.

The JavaScript sources are shallowly embedded as Lean definitions:
  * `globMatch`           — lib/secrets-bws-helpers.js `globMatch`
                          (the constructed regex, embedded as a token list)
  * `parseFlags`          — lib/secrets-bws-helpers.js `parseFlags`
  * `buildKeyIndex`, `buildProjectIndex`, `buildProjectIdMap`
                          — the three indexers of the helper library
  * `chunksOf`, `runMoveBatches`, `cmdMoveReport` — the batch executor
                          and report phase of `cmdMove` in bin/secrets-bws.js
  * `cmdSetUpdateArgs`    — the update branch of `cmdSet`
  * `cmdDelete`           — the confirmation handling of `cmdDelete`
  * `validateKeys`, `fetchSecretsW`, `runWrapper` — bin/bws-mcp-wrapper.js

JavaScript objects used as string-keyed maps are embedded as functions
`String → Option v` (property assignment is pointwise update, property
absence is `none`), and JavaScript strings are Lean `String`s (which are
lists of characters).  JavaScript-level process exits and API-level
failures are explicit constructors; the one runtime throw in the
embedded fragment — the RegExp constructor rejecting a malformed
pattern — is embedded as `none`.
-/
import Mathlib

namespace SecretsBws

/-! ## Definitions -/

/-! ### Glob matcher

`globMatch(pattern, str)` (lib/secrets-bws-helpers.js line 37) builds
an anchored case-insensitive RegExp from `escaped`: the pattern with
every character of the source's escape class — dot, plus, caret,
dollar, both braces, both parentheses, pipe, both brackets and the
backslash — backslash-escaped and every `*` replaced by `.*`; it then
tests the candidate.  That escape class covers every regex
metacharacter except `?`.  Hence in the constructed regex the only
unescaped special tokens are the `.*` pairs coming from `*` and the
`?` characters of the original pattern: such a `?` acts as the
zero-or-one regex quantifier on the preceding atom (a literal or a
`.*`, where it is the laziness marker), and a `?` with no quantifiable
atom before it — at the start of the pattern, or after an already
lazy quantifier — makes the RegExp constructor throw "nothing to
repeat", embedded as `none`.  The `i` flag is embedded as comparison
under `Char.toLower`. -/

/-- One token of the constructed regex: a literal atom (any escaped or
ordinary character), a literal atom under a `?` quantifier (zero or
one; `lzy` records a trailing lazy `?`), or `.*` (any sequence; `lzy`
records `.*?`). -/
inductive RegTok where
  | lit (c : Char) : RegTok
  | litOpt (c : Char) (lzy : Bool) : RegTok
  | anySeq (lzy : Bool) : RegTok
  deriving DecidableEq, Repr

/-- Parse the regex the source constructs: `*` becomes `.*`; `?`
quantifies the preceding literal atom, or marks an existing quantifier
lazy, or — with no quantifiable atom before it — makes the RegExp
constructor throw (`none`); every other pattern character, the escaped
metacharacters included, is a literal atom.  `acc` holds the tokens
parsed so far, most recent first. -/
def parseGlob : List Char → List RegTok → Option (List RegTok)
  | [], acc => some acc.reverse
  | c :: cs, acc =>
    if c = '*' then parseGlob cs (RegTok.anySeq false :: acc)
    else if c = '?' then
      match acc with
      | RegTok.lit d :: acc2 => parseGlob cs (RegTok.litOpt d false :: acc2)
      | RegTok.litOpt d false :: acc2 => parseGlob cs (RegTok.litOpt d true :: acc2)
      | RegTok.anySeq false :: acc2 => parseGlob cs (RegTok.anySeq true :: acc2)
      | _ => none
    else parseGlob cs (RegTok.lit c :: acc)

/-- Anchored acceptance of a token sequence by a candidate, ignoring
case: a literal consumes one matching character, an optional literal
consumes zero or one, `.*` consumes any prefix (the remaining tokens
must accept some suffix).  Laziness affects which match the engine
finds, never whether one exists, so `test` ignores it. -/
def toksMatch : List RegTok → List Char → Bool
  | [], s => s.isEmpty
  | RegTok.lit c :: ts, s =>
    (match s with
     | [] => false
     | d :: ds => (c.toLower = d.toLower) && toksMatch ts ds)
  | RegTok.litOpt c _ :: ts, s =>
    toksMatch ts s ||
      (match s with
       | [] => false
       | d :: ds => (c.toLower = d.toLower) && toksMatch ts ds)
  | RegTok.anySeq _ :: ts, s => s.tails.any (toksMatch ts)

/-- `globMatch(pattern, str)` of lib/secrets-bws-helpers.js: `none`
when the constructed regex does not compile (the call throws),
otherwise the result of the anchored case-insensitive test. -/
def globMatch (pattern str : String) : Option Bool :=
  (parseGlob pattern.data []).map fun ts => toksMatch ts str.data

/-- Lowercasing a string character-wise, the comparison key used by the
case-insensitive regex test. -/
def lowerKey (s : List Char) : List Char := s.map Char.toLower

/-! ### Flag parsing

`parseFlags(args)` of lib/secrets-bws-helpers.js walks the argument
array: an argument starting with `--` names a flag; flags in
`BOOLEAN_FLAGS`, and flags whose following argument is `undefined`
(i.e. the flag is the last argument), are set to the value `true`;
every other flag consumes the next argument as its string value;
non-flag arguments are collected into `rest` in order.  A JavaScript
flag value is either the boolean `true` or a string. -/

/-- A value stored in the `flags` object: `true` or a string. -/
inductive FlagVal where
  | boolTrue : FlagVal
  | str (s : String) : FlagVal
  deriving DecidableEq, Repr

/-- `BOOLEAN_FLAGS` of lib/secrets-bws-helpers.js. -/
def BOOLEAN_FLAGS : List String := ["json"]

/-- `args[i].startsWith('--')`. -/
def startsWithDashes (s : String) : Bool :=
  decide (s.data.take 2 = ['-', '-'])

/-- `args[i].slice(2)`. -/
def dropDashes (s : String) : String :=
  ⟨s.data.drop 2⟩

/-- `parseFlags(args)` of lib/secrets-bws-helpers.js.  The flags object
is embedded as the list of property assignments in execution order;
`lookupFlag` below recovers the final value of a property. -/
def parseFlags : List String → List (String × FlagVal) × List String
  | [] => ([], [])
  | a :: rest =>
    if startsWithDashes a then
      let flag := dropDashes a
      if BOOLEAN_FLAGS.contains flag then
        ((flag, FlagVal.boolTrue) :: (parseFlags rest).1, (parseFlags rest).2)
      else
        match rest with
        | [] => ([(flag, FlagVal.boolTrue)], [])
        | v :: rest2 =>
          ((flag, FlagVal.str v) :: (parseFlags rest2).1, (parseFlags rest2).2)
    else
      ((parseFlags rest).1, a :: (parseFlags rest).2)

/-- Reading a property of the flags object: the last assignment to the
name wins, a name never assigned reads as `undefined` (`none`). -/
def lookupFlag (fs : List (String × FlagVal)) (name : String) : Option FlagVal :=
  (fs.reverse.find? fun p => p.1 == name).map Prod.snd

/-- `flags.note !== undefined` (line 147 of bin/secrets-bws.js),
generalised to any flag name. -/
def flagProvided (fs : List (String × FlagVal)) (name : String) : Bool :=
  (lookupFlag fs name).isSome

/-! ### Indexers

The three indexers of lib/secrets-bws-helpers.js build JavaScript
objects keyed by strings; they are embedded as functions
`String → Option v`.  `buildKeyIndex` and `buildProjectIndex` insert
only when the name is not yet present (`!(entry.key in index)`),
`buildProjectIdMap` assigns unconditionally (later entries
overwrite). -/

/-- An element of a secrets list response: the fields the helper
library reads. -/
structure SecretListEntry where
  key : String
  id : String
  deriving DecidableEq, Repr

/-- An element of a projects list response. -/
structure ProjectEntry where
  name : String
  id : String
  deriving DecidableEq, Repr

/-- `index[k] = v` on a JavaScript object embedded as a function. -/
def objSet (m : String → Option α) (k : String) (v : α) : String → Option α :=
  fun q => if q = k then some v else m q

/-- The loop body of `buildKeyIndex` / `buildProjectIndex`:
`if (!(name in index)) index[name] = entry`. -/
def insertIfAbsent (m : String → Option α) (k : String) (v : α) : String → Option α :=
  if (m k).isSome then m else objSet m k v

/-- Loop of `buildKeyIndex(listData)`. -/
def buildKeyIndexGo (m : String → Option SecretListEntry) :
    List SecretListEntry → (String → Option SecretListEntry)
  | [] => m
  | e :: rest => buildKeyIndexGo (insertIfAbsent m e.key e) rest

/-- `buildKeyIndex(listData)` of lib/secrets-bws-helpers.js:
key → entry, first match wins. -/
def buildKeyIndex (listData : List SecretListEntry) : String → Option SecretListEntry :=
  buildKeyIndexGo (fun _ => none) listData

/-- Loop of `buildProjectIndex(listData)`. -/
def buildProjectIndexGo (m : String → Option ProjectEntry) :
    List ProjectEntry → (String → Option ProjectEntry)
  | [] => m
  | e :: rest => buildProjectIndexGo (insertIfAbsent m e.name e) rest

/-- `buildProjectIndex(listData)` of lib/secrets-bws-helpers.js:
name → entry, first match wins. -/
def buildProjectIndex (listData : List ProjectEntry) : String → Option ProjectEntry :=
  buildProjectIndexGo (fun _ => none) listData

/-- Loop of `buildProjectIdMap(listData)`: `map[entry.id] = entry.name`
unconditionally. -/
def buildProjectIdMapGo (m : String → Option String) :
    List ProjectEntry → (String → Option String)
  | [] => m
  | e :: rest => buildProjectIdMapGo (objSet m e.id e.name) rest

/-- `buildProjectIdMap(listData)` of lib/secrets-bws-helpers.js:
projectId → name, later entries overwrite. -/
def buildProjectIdMap (listData : List ProjectEntry) : String → Option String :=
  buildProjectIdMapGo (fun _ => none) listData

/-! ### The move command batch executor

`cmdMove` (bin/secrets-bws.js lines 199–208) slices the match list
into consecutive chunks of `BATCH = 5`, issues each chunk's updates
concurrently through `Promise.allSettled`, waits for the chunk to
settle and appends the settled outcomes to `results` before the next
chunk is dispatched.  The per-item update call is abstracted as a
function `op` from the matched secret to its settled outcome —
`Promise.allSettled` never rejects, so each item independently yields
either a fulfilled or a rejected outcome. -/

/-- `const BATCH = 5`. -/
def BATCH : Nat := 5

/-- `matches.slice(i, i + BATCH)` for `i = 0, BATCH, 2·BATCH, …`:
the consecutive chunks the loop dispatches, in dispatch order. -/
def chunksOf : Nat → List α → List (List α)
  | _, [] => []
  | 0, a :: rest => [a :: rest]
  | n + 1, a :: rest => (a :: rest.take n) :: chunksOf (n + 1) (rest.drop n)
termination_by _ l => l.length
decreasing_by
  simp only [List.length_cons, List.length_drop]
  omega

/-- The settled state of one item's update promise. -/
inductive Settled where
  | fulfilled : Settled
  | rejected (reason : String) : Settled
  deriving DecidableEq, Repr

/-- `results[i].status === 'fulfilled'`. -/
def isFulfilled : Settled → Bool
  | .fulfilled => true
  | .rejected _ => false

/-- The batch loop of `cmdMove`: per chunk, settle all of the chunk's
operations and append the outcomes to the results array. -/
def runMoveBatches (op : α → Settled) (ms : List α) : List Settled :=
  ((chunksOf BATCH ms).map fun batch => batch.map op).flatten

/-- `moved`: the number of fulfilled outcomes. -/
def movedCount (results : List Settled) : Nat :=
  results.countP fun r => isFulfilled r

/-- The report phase of `cmdMove` (lines 210–223): one terminal line
per item — `(isError, text)` with `true` for `console.error`, `false`
for `console.log` — a summary line when more than one item was
processed, and `process.exit(1)` exactly when `moved < matches.length`. -/
structure MoveReport where
  lines : List (Bool × String)
  summary : Option String
  exitFailure : Bool

/-- Build the `MoveReport` of `cmdMove` from the matched secrets and
the settled per-item results (`results[i]` pairs with `matches[i]`). -/
def cmdMoveReport (projectName : String) (ms : List SecretListEntry)
    (results : List Settled) : MoveReport :=
  { lines :=
      (ms.zip results).map fun kr =>
        match kr.2 with
        | .fulfilled => (false, "Moved " ++ kr.1.key ++ " -> " ++ projectName)
        | .rejected reason =>
            (true, "ERROR: Failed to move " ++ kr.1.key ++ ": " ++ reason)
    summary :=
      if ms.length > 1 then
        some ("Moved " ++ toString (movedCount results) ++ " of " ++
          toString ms.length ++ " secrets to " ++ projectName)
      else none
    exitFailure := movedCount results < ms.length }

/-! ### The set command update branch

`cmdSet` (bin/secrets-bws.js lines 143–181): `noteProvided` is
`flags.note !== undefined`; when the key already exists the current
secret is fetched and the update call receives
`noteProvided ? flags.note : current.note` as note and
`projectIds.length > 0 ? projectIds : (current.projectId ? [current.projectId] : [])`
as project list.  `projectIds` is `[resolvedId]` when `--project` was
supplied and `[]` otherwise. -/

/-- A JavaScript value that a note slot can hold: `undefined`, the
boolean `true` (a flag with no following argument) or a string. -/
inductive JsVal where
  | undef : JsVal
  | boolTrue : JsVal
  | str (s : String) : JsVal
  deriving DecidableEq, Repr

/-- The current secret as fetched by `getByIds` for the update branch:
the fields `cmdSet` reads. -/
structure CurrentSecret where
  note : JsVal
  projectId : Option String
  deriving DecidableEq, Repr

/-- The arguments `cmdSet` passes to `client.secrets().update`. -/
structure UpdateArgs where
  id : String
  key : String
  value : String
  note : JsVal
  projectIds : List String
  deriving DecidableEq, Repr

/-- The update branch of `cmdSet` (lines 168–175): compute the
arguments of the `update` call from the command inputs and the
fetched current secret. -/
def cmdSetUpdateArgs (key value : String) (flagNote : JsVal)
    (projectIds : List String) (existingId : String)
    (current : CurrentSecret) : UpdateArgs :=
  let noteProvided := flagNote ≠ JsVal.undef
  { id := existingId
    key := key
    value := value
    note := if noteProvided then flagNote else current.note
    projectIds :=
      if projectIds.length > 0 then projectIds
      else
        match current.projectId with
        | some p => [p]
        | none => [] }

/-! ### The delete command

`cmdDelete` (bin/secrets-bws.js lines 226–238): look the key up in
the key index; a missing key dies; otherwise the delete call's
response is inspected — `result.data && result.data[0]` must yield an
item and the item's `error` field must be falsy, else the command
dies.  The delete response's `data` may be absent (`none`) or an
array. -/

/-- One element of the delete response's `data` array. -/
structure DeleteRespItem where
  id : String
  error : Option String
  deriving DecidableEq, Repr

/-- JavaScript truthiness of an optional string field: absent and the
empty string are falsy. -/
def strTruthy : Option String → Bool
  | none => false
  | some s => s ≠ ""

/-- Outcome of a command: `error msg` models `die(msg)`
(`process.exit(1)`), `ok msg` the success `console.log`. -/
def CmdResult := Except String String

/-- Whether a command outcome is a success. -/
def cmdOk : CmdResult → Bool
  | .ok _ => true
  | .error _ => false

/-- `cmdDelete(key)` given the secrets list response and the delete
call's response `data` field. -/
def cmdDelete (listData : List SecretListEntry) (key : String)
    (respData : Option (List DeleteRespItem)) : CmdResult :=
  match buildKeyIndex listData key with
  | none => .error ("Secret not found: " ++ key)
  | some _ =>
    match respData.bind List.head? with
    | none => .error ("Failed to delete " ++ key ++ ": no confirmation from server")
    | some item =>
      if strTruthy item.error then
        .error ("Failed to delete " ++ key ++ ": " ++ item.error.getD "")
      else
        .ok ("Deleted secret " ++ key)

/-! ### The bws-mcp-wrapper

bin/bws-mcp-wrapper.js: `fetchSecrets(keys)` builds a key → value
index over the synced secrets (first match wins), then validates every
requested key, exiting with an error at the first missing one; only
when all keys resolved does `main` build the child environment and
argument injections and spawn the child process. -/

/-- A synced secret as read by the wrapper: key and value. -/
structure SyncedSecret where
  key : String
  value : String
  deriving DecidableEq, Repr

/-- Injection mode: environment variable or CLI argument. -/
inductive InjMode where
  | env : InjMode
  | arg : InjMode
  deriving DecidableEq, Repr

/-- One `--secret KEY (--env VAR | --arg FLAG)` injection. -/
structure Injection where
  bwsKey : String
  mode : InjMode
  target : String
  deriving DecidableEq, Repr

/-- Loop of the wrapper's key → value index:
`if (!(s.key in index)) index[s.key] = s.value` (first match wins). -/
def keyValIndexGo (m : String → Option String) :
    List SyncedSecret → (String → Option String)
  | [] => m
  | s :: rest => keyValIndexGo (insertIfAbsent m s.key s.value) rest

/-- The wrapper's key → value index over the synced secrets. -/
def keyValIndex (all : List SyncedSecret) : String → Option String :=
  keyValIndexGo (fun _ => none) all

/-- The wrapper's validation loop: return the first requested key
missing from the index, if any. -/
def validateKeys (index : String → Option String) : List String → Option String
  | [] => none
  | k :: rest => if (index k).isNone then some k else validateKeys index rest

/-- `fetchSecrets(keys)` of bin/bws-mcp-wrapper.js: exit with an error
at the first missing key, else the key → value result object. -/
def fetchSecretsW (all : List SyncedSecret) (keys : List String) :
    Except String (String → Option String) :=
  let index := keyValIndex all
  match validateKeys index keys with
  | some k => .error ("Secret not found in Bitwarden SM: " ++ k)
  | none => .ok fun k => if keys.contains k then index k else none

/-- The wrapper's final state: either an error exit before the child
was spawned, or the spawned child with its injected environment
additions and extra CLI arguments. -/
inductive WrapperResult where
  | exitError (msg : String) : WrapperResult
  | spawned (envAdds : List (String × String)) (extraArgs : List String) : WrapperResult

/-- Whether the wrapper reached the `spawn` call. -/
def isSpawned : WrapperResult → Bool
  | .spawned _ _ => true
  | .exitError _ => false

/-- The injection loop of `main`: fold the injections into environment
additions and extra CLI arguments, reading each value from the fetched
secrets. -/
def buildInjections (secretValues : String → Option String) :
    List Injection → List (String × String) × List String
  | [] => ([], [])
  | inj :: rest =>
    let v := (secretValues inj.bwsKey).getD ""
    let r := buildInjections secretValues rest
    match inj.mode with
    | .env => ((inj.target, v) :: r.1, r.2)
    | .arg => (r.1, inj.target :: v :: r.2)

/-- `main()` of bin/bws-mcp-wrapper.js up to the `spawn` call: fetch
the secrets for the requested keys; a fetch error exits the process
before any child is spawned; otherwise the child is spawned with the
injected environment and arguments. -/
def runWrapper (all : List SyncedSecret) (injections : List Injection) :
    WrapperResult :=
  let neededKeys := injections.map fun inj => inj.bwsKey
  match fetchSecretsW all neededKeys with
  | .error msg => .exitError msg
  | .ok secretValues =>
    let built := buildInjections secretValues injections
    .spawned built.1 built.2

/-! ## Theorems -/

/-! ### Glob matcher lemmas -/

theorem parseGlob_lits : ∀ p : List Char, '*' ∉ p → '?' ∉ p →
    ∀ acc : List RegTok,
      parseGlob p acc = some (acc.reverse ++ p.map RegTok.lit)
  | [], _, _ => by
    intro acc
    simp [parseGlob]
  | c :: cs, hs, hq => by
    intro acc
    have hc1 : c ≠ '*' := fun h => hs (h ▸ List.mem_cons_self c cs)
    have hc2 : c ≠ '?' := fun h => hq (h ▸ List.mem_cons_self c cs)
    have h1 := parseGlob_lits cs (fun h => hs (List.mem_cons_of_mem c h))
      (fun h => hq (List.mem_cons_of_mem c h)) (RegTok.lit c :: acc)
    simp [parseGlob, hc1, hc2, h1]

theorem toksMatch_lits (p : List Char) (s : List Char) :
    toksMatch (p.map RegTok.lit) s = true ↔ lowerKey p = lowerKey s := by
  induction p generalizing s with
  | nil =>
    cases s with
    | nil => simp [toksMatch, lowerKey]
    | cons c cs => simp [toksMatch, lowerKey]
  | cons a ps ih =>
    cases s with
    | nil =>
      simp [toksMatch, lowerKey]
    | cons c cs =>
      simp only [List.map_cons, toksMatch, Bool.and_eq_true, decide_eq_true_eq,
        lowerKey, List.cons.injEq]
      constructor
      · rintro ⟨h1, h2⟩
        exact ⟨h1, (ih cs).mp h2⟩
      · rintro ⟨h1, h2⟩
        exact ⟨h1, (ih cs).mpr h2⟩

/-! ### Flag parsing lemmas -/

theorem data_dashes_append (f : String) :
    ("--" ++ f).data = '-' :: '-' :: f.data := by
  cases f with
  | mk d => rfl

theorem startsWithDashes_append (f : String) :
    startsWithDashes ("--" ++ f) = true := by
  simp [startsWithDashes, data_dashes_append]

theorem dropDashes_append (f : String) :
    dropDashes ("--" ++ f) = f := by
  cases f with
  | mk d =>
    simp [dropDashes, data_dashes_append]

theorem parseFlags_trailing (f : String)
    (hf : BOOLEAN_FLAGS.contains f = false) :
    ∀ pos : List String, (∀ a ∈ pos, startsWithDashes a = false) →
      parseFlags (pos ++ ["--" ++ f]) = ([(f, FlagVal.boolTrue)], pos)
  | [], _ => by
    simp [parseFlags, startsWithDashes_append, dropDashes_append, hf]
  | a :: pos', hpos => by
    have ha : startsWithDashes a = false := hpos a (List.mem_cons_self a pos')
    have hrec := parseFlags_trailing f hf pos'
      (fun b hb => hpos b (List.mem_cons_of_mem a hb))
    simp [parseFlags, ha, hrec]

/-! ### Batch executor lemmas -/

theorem chunksOf_flatten (n : Nat) : ∀ l : List α,
    (chunksOf (n + 1) l).flatten = l
  | [] => by simp [chunksOf]
  | a :: rest => by
    simp only [chunksOf, List.flatten_cons]
    rw [chunksOf_flatten n (rest.drop n)]
    simp [List.take_append_drop]
termination_by l => l.length
decreasing_by
  simp only [List.length_cons, List.length_drop]
  omega

theorem chunksOf_length_le (n : Nat) : ∀ l : List α,
    (chunksOf (n + 1) l).all (fun c => decide (c.length ≤ n + 1)) = true
  | [] => by simp [chunksOf]
  | a :: rest => by
    simp only [chunksOf, List.all_cons, Bool.and_eq_true]
    refine ⟨?_, chunksOf_length_le n (rest.drop n)⟩
    simp only [decide_eq_true_eq, List.length_cons, List.length_take]
    omega
termination_by l => l.length
decreasing_by
  simp only [List.length_cons, List.length_drop]
  omega

theorem runMoveBatches_eq_map (op : α → Settled) (ms : List α) :
    runMoveBatches op ms = ms.map op := by
  unfold runMoveBatches
  rw [← List.map_flatten]
  rw [show BATCH = 4 + 1 from rfl, chunksOf_flatten 4 ms]

theorem countP_lt_length_iff_any (q : α → Bool) (l : List α) :
    decide (l.countP q < l.length) = l.any fun a => !q a := by
  induction l with
  | nil => simp
  | cons a l ih =>
    by_cases hqa : q a = true
    · simp only [List.countP_cons, hqa, if_true, List.length_cons,
        List.any_cons, hqa, Bool.not_true, Bool.false_or]
      rw [← ih]
      simp [Nat.add_lt_add_iff_right]
    · have hqa' : q a = false := by
        cases h : q a
        · rfl
        · exact absurd h hqa
      have hle := List.countP_le_length (p := q) (l := l)
      simp [List.countP_cons, hqa']
      omega

/-! ### Indexer lemmas -/

theorem find?_isSome_eq_any (p : α → Bool) (l : List α) :
    (l.find? p).isSome = l.any p := by
  induction l with
  | nil => simp
  | cons a l ih =>
    cases h : p a <;> simp [List.find?_cons, h, ih]

theorem buildKeyIndexGo_lookup (l : List SecretListEntry) :
    ∀ (m : String → Option SecretListEntry) (k : String),
      buildKeyIndexGo m l k = (m k).or (l.find? fun e => e.key == k) := by
  induction l with
  | nil => intro m k; simp [buildKeyIndexGo]
  | cons e rest ih =>
    intro m k
    simp only [buildKeyIndexGo, List.find?_cons]
    rw [ih]
    by_cases hk : e.key = k
    · subst hk
      cases hm : m e.key with
      | none =>
        simp [insertIfAbsent, hm, objSet]
      | some v =>
        simp [insertIfAbsent, hm, Option.or]
    · have hk' : (e.key == k) = false := by
        simp [hk]
      cases hm : m e.key with
      | none =>
        have hke : ¬ k = e.key := fun h => hk h.symm
        have : objSet m e.key e k = m k := by
          simp [objSet, hke]
        simp [insertIfAbsent, hm, hk', this]
      | some v =>
        simp [insertIfAbsent, hm, hk']

theorem buildKeyIndex_lookup (l : List SecretListEntry) (k : String) :
    buildKeyIndex l k = l.find? fun e => e.key == k := by
  simp [buildKeyIndex, buildKeyIndexGo_lookup]

theorem buildProjectIndexGo_lookup (l : List ProjectEntry) :
    ∀ (m : String → Option ProjectEntry) (k : String),
      buildProjectIndexGo m l k = (m k).or (l.find? fun e => e.name == k) := by
  induction l with
  | nil => intro m k; simp [buildProjectIndexGo]
  | cons e rest ih =>
    intro m k
    simp only [buildProjectIndexGo, List.find?_cons]
    rw [ih]
    by_cases hk : e.name = k
    · subst hk
      cases hm : m e.name with
      | none =>
        simp [insertIfAbsent, hm, objSet]
      | some v =>
        simp [insertIfAbsent, hm, Option.or]
    · have hk' : (e.name == k) = false := by
        simp [hk]
      cases hm : m e.name with
      | none =>
        have hke : ¬ k = e.name := fun h => hk h.symm
        have : objSet m e.name e k = m k := by
          simp [objSet, hke]
        simp [insertIfAbsent, hm, hk', this]
      | some v =>
        simp [insertIfAbsent, hm, hk']

theorem buildProjectIndex_lookup (l : List ProjectEntry) (k : String) :
    buildProjectIndex l k = l.find? fun e => e.name == k := by
  simp [buildProjectIndex, buildProjectIndexGo_lookup]

theorem buildProjectIdMapGo_lookup (l : List ProjectEntry) :
    ∀ (m : String → Option String) (k : String),
      buildProjectIdMapGo m l k =
        ((l.reverse.find? fun e => e.id == k).map fun e => e.name).or (m k) := by
  induction l with
  | nil => intro m k; simp [buildProjectIdMapGo]
  | cons e rest ih =>
    intro m k
    simp only [buildProjectIdMapGo, List.reverse_cons, List.find?_append]
    rw [ih]
    cases hr : rest.reverse.find? fun e => e.id == k with
    | some x => simp [Option.or]
    | none =>
      by_cases hk : e.id = k
      · subst hk
        simp [List.find?_cons, objSet]
      · have hk' : (e.id == k) = false := by
          simp [hk]
        have hke : ¬ k = e.id := fun h => hk h.symm
        have : objSet m e.id e.name k = m k := by
          simp [objSet, hke]
        simp [List.find?_cons, hk', this]

theorem buildProjectIdMap_lookup (l : List ProjectEntry) (k : String) :
    buildProjectIdMap l k =
      (l.reverse.find? fun e => e.id == k).map fun e => e.name := by
  simp [buildProjectIdMap, buildProjectIdMapGo_lookup]

/-! ### Report and wrapper lemmas -/

theorem zip_self_map (op : α → β) (ms : List α) :
    ms.zip (ms.map op) = ms.map fun s => (s, op s) := by
  have h := List.zip_map' (fun a : α => a) op ms
  simpa using h

theorem all_map_comp (g : α → String) (p : String → Bool) (l : List α) :
    (l.map g).all p = l.all fun a => p (g a) := by
  induction l with
  | nil => rfl
  | cons a l ih => simp [List.all_cons, ih]

theorem validateKeys_eq_none_iff (index : String → Option String)
    (keys : List String) :
    validateKeys index keys = none ↔
      keys.all (fun k => (index k).isSome) = true := by
  induction keys with
  | nil => simp [validateKeys]
  | cons k rest ih =>
    cases h : index k with
    | none => simp [validateKeys, h]
    | some v => simp [validateKeys, h, ih]

/-! ## Claim theorems -/

/-- Counterexample to C1 as stated: the source's escape class omits
`?`, so for the star-free pattern `A?` the constructed regex is `^A?$`
and `?` is a zero-or-one quantifier, not a literal —
`globMatch("A?", "A")` is true though the strings differ ignoring
case, and `globMatch("A?", "A?")` is false though they are equal. -/
theorem globMatch_question_not_literal :
    ('*' ∉ "A?".data)
    ∧ globMatch "A?" "A" = some true
    ∧ lowerKey "A?".data ≠ lowerKey "A".data
    ∧ globMatch "A?" "A?" = some false
    ∧ lowerKey "A?".data = lowerKey "A?".data := by
  decide

/-- C1, amended.  For every pattern containing no `*` and also no `?`
— the one regex metacharacter the source fails to escape — and every
candidate, `globMatch` returns true iff the pattern equals the
candidate ignoring case: each such pattern character, the escaped
metacharacters included, is matched literally. -/
theorem globMatch_no_star_no_question_exact_ci (pattern str : String)
    (hs : '*' ∉ pattern.data) (hq : '?' ∉ pattern.data) :
    globMatch pattern str = some true ↔
      lowerKey pattern.data = lowerKey str.data := by
  have h := parseGlob_lits pattern.data hs hq []
  unfold globMatch
  rw [h]
  simp [toksMatch_lits]

/-- Witness for C1 (amended): the metacharacter pattern `MY.KEY`
contains neither `*` nor `?` and matches `my.key` exactly, ignoring
case. -/
theorem globMatch_no_star_no_question_exact_ci_witness :
    ('*' ∉ "MY.KEY".data) ∧ ('?' ∉ "MY.KEY".data)
    ∧ globMatch "MY.KEY" "my.key" = some true :=
  ⟨by decide, by decide,
   (globMatch_no_star_no_question_exact_ci "MY.KEY" "my.key"
      (by decide) (by decide)).mpr (by decide)⟩

/-- C2.  The move command's batch executor attempts every one of the n
matched items, gives each exactly one outcome, aligns outcome i with
input item i, and no item's failure prevents any other item's attempt:
for an arbitrary per-item settlement function `op` (including ones
that fail on some items), the executor's output is exactly `ms.map op`. -/
theorem move_batch_every_item_attempted (op : α → Settled) (ms : List α) :
    runMoveBatches op ms = ms.map op
    ∧ (runMoveBatches op ms).length = ms.length
    ∧ ∀ i : Nat, (runMoveBatches op ms)[i]? = (ms[i]?).map op := by
  refine ⟨runMoveBatches_eq_map op ms, ?_, ?_⟩
  · rw [runMoveBatches_eq_map]; simp
  · intro i; rw [runMoveBatches_eq_map]; simp

/-- C3.  The move command's batch executor never has more than
`BATCH = 5` updates in flight: the dispatched groups are the
consecutive chunks of at most 5 items, one group in flight at a time
(the executor settles a whole chunk before concatenating its outcomes
and dispatching the next), and the groups partition the input in
order. -/
theorem move_batch_bounded_in_flight (op : α → Settled) (ms : List α) :
    (chunksOf BATCH ms).all (fun c => decide (c.length ≤ BATCH)) = true
    ∧ (chunksOf BATCH ms).flatten = ms
    ∧ runMoveBatches op ms = ((chunksOf BATCH ms).map fun b => b.map op).flatten := by
  refine ⟨?_, ?_, rfl⟩
  · exact chunksOf_length_le 4 ms
  · exact chunksOf_flatten 4 ms

/-- C4.  The name-to-entry indexers map each name to the first entry in
sequence order carrying it (`List.find?`), and hold a binding for a
name iff some entry carries it. -/
theorem name_index_first_wins (sl : List SecretListEntry)
    (pl : List ProjectEntry) (k : String) :
    buildKeyIndex sl k = sl.find? (fun e => e.key == k)
    ∧ (buildKeyIndex sl k).isSome = sl.any (fun e => e.key == k)
    ∧ buildProjectIndex pl k = pl.find? (fun e => e.name == k)
    ∧ (buildProjectIndex pl k).isSome = pl.any (fun e => e.name == k) := by
  refine ⟨buildKeyIndex_lookup sl k, ?_, buildProjectIndex_lookup pl k, ?_⟩
  · rw [buildKeyIndex_lookup]; exact find?_isSome_eq_any _ _
  · rw [buildProjectIndex_lookup]; exact find?_isSome_eq_any _ _

/-- C5.  `buildProjectIdMap` maps each id occurring in the sequence to
the name of the last entry carrying that id (the first match in the
reversed sequence): later entries overwrite earlier ones. -/
theorem project_id_map_last_wins (l : List ProjectEntry) (i : String) :
    buildProjectIdMap l i =
      (l.reverse.find? fun e => e.id == i).map fun e => e.name :=
  buildProjectIdMap_lookup l i

/-- C6.  When `cmdSet` updates an existing secret, an omitted `--note`
makes the update call carry the previously fetched note, and an
omitted `--project` (empty `projectIds`) makes it carry the previous
project assignment (empty when the secret had none); the key, value
and id are passed through unchanged. -/
theorem set_update_preserves_omitted_fields (key value : String)
    (flagNote : JsVal) (projectIds : List String) (existingId : String)
    (current : CurrentSecret) :
    (flagNote = JsVal.undef →
      (cmdSetUpdateArgs key value flagNote projectIds existingId current).note
        = current.note)
    ∧ (projectIds = [] →
      (cmdSetUpdateArgs key value flagNote projectIds existingId current).projectIds
        = current.projectId.toList)
    ∧ (cmdSetUpdateArgs key value flagNote projectIds existingId current).key = key
    ∧ (cmdSetUpdateArgs key value flagNote projectIds existingId current).value = value
    ∧ (cmdSetUpdateArgs key value flagNote projectIds existingId current).id = existingId := by
  refine ⟨?_, ?_, rfl, rfl, rfl⟩
  · intro h
    subst h
    simp [cmdSetUpdateArgs]
  · intro h
    subst h
    cases hc : current.projectId <;> simp [cmdSetUpdateArgs, hc, Option.toList]

/-- Witness for C6: with both options omitted, the update call carries
the fetched note and the fetched project assignment. -/
theorem set_update_preserves_omitted_fields_witness :
    (cmdSetUpdateArgs "K" "V" JsVal.undef [] "id1"
      ⟨JsVal.str "old note", some "p9"⟩).note = JsVal.str "old note"
    ∧ (cmdSetUpdateArgs "K" "V" JsVal.undef [] "id1"
      ⟨JsVal.str "old note", some "p9"⟩).projectIds = ["p9"] :=
  ⟨(set_update_preserves_omitted_fields "K" "V" JsVal.undef [] "id1"
      ⟨JsVal.str "old note", some "p9"⟩).1 rfl,
   (set_update_preserves_omitted_fields "K" "V" JsVal.undef [] "id1"
      ⟨JsVal.str "old note", some "p9"⟩).2.1 rfl⟩

/-- C7.  `cmdDelete` succeeds exactly when the key resolves in the name
index, the delete response yields a first confirmation item, and that
item's error field is falsy; a missing key, a missing confirmation
record, and a truthy per-item error are each reported as failure. -/
theorem delete_requires_confirmation (listData : List SecretListEntry)
    (key : String) (respData : Option (List DeleteRespItem)) :
    cmdOk (cmdDelete listData key respData) = true ↔
      ((buildKeyIndex listData key).isSome = true ∧
        ∃ item, respData.bind List.head? = some item ∧
          strTruthy item.error = false) := by
  rcases h1 : buildKeyIndex listData key with _ | e
  · simp [cmdDelete, cmdOk, h1]
  · rcases h2 : respData.bind List.head? with _ | item
    · simp [cmdDelete, cmdOk, h1, h2]
    · by_cases h3 : strTruthy item.error = true
      · simp [cmdDelete, cmdOk, h1, h2, h3]
      · have h3' : strTruthy item.error = false := by
          revert h3; cases strTruthy item.error <;> simp
        simp [cmdDelete, cmdOk, h1, h2, h3']

/-- C8.  After the batch completes, `cmdMove` emits one report line per
item whose error tag reflects that item's failure, emits the summary
line exactly when more than one item was processed, and exits with
failure iff at least one item's update failed — while the executor
attempted every item. -/
theorem move_report_lines_summary_exit (projectName : String)
    (ms : List SecretListEntry) (op : SecretListEntry → Settled) :
    (cmdMoveReport projectName ms (runMoveBatches op ms)).lines.length = ms.length
    ∧ (∀ i : Nat,
        ((cmdMoveReport projectName ms (runMoveBatches op ms)).lines[i]?).map Prod.fst
          = (ms[i]?).map fun s => !isFulfilled (op s))
    ∧ (cmdMoveReport projectName ms (runMoveBatches op ms)).summary.isSome
        = decide (ms.length > 1)
    ∧ (cmdMoveReport projectName ms (runMoveBatches op ms)).exitFailure
        = ms.any fun s => !isFulfilled (op s) := by
  rw [runMoveBatches_eq_map]
  refine ⟨?_, ?_, ?_, ?_⟩
  · simp [cmdMoveReport, zip_self_map]
  · intro i
    simp only [cmdMoveReport, zip_self_map, List.map_map, List.getElem?_map]
    cases hsi : ms[i]? with
    | none => rfl
    | some s =>
      cases hop : op s <;> simp [isFulfilled, hop]
  · simp only [cmdMoveReport]
    by_cases h : ms.length > 1
    · rw [if_pos h]
      simp [h]
    · rw [if_neg h]
      simp [h]
  · simp only [cmdMoveReport, movedCount, List.countP_map]
    rw [countP_lt_length_iff_any]
    rfl

/-- C9.  The bws-mcp-wrapper spawns the child process iff every
requested secret key resolves in the synced key-to-value index; any
missing key makes the wrapper exit with an error before the spawn, so
no partial injection occurs. -/
theorem wrapper_spawns_only_when_all_keys_resolved
    (all : List SyncedSecret) (injections : List Injection) :
    isSpawned (runWrapper all injections)
      = injections.all fun inj => (keyValIndex all inj.bwsKey).isSome := by
  cases hv : validateKeys (keyValIndex all) (injections.map fun inj => inj.bwsKey) with
  | none =>
    have hall := (validateKeys_eq_none_iff _ _).mp hv
    rw [all_map_comp] at hall
    simp only [runWrapper, fetchSecretsW, hv, isSpawned]
    exact hall.symm
  | some k =>
    have hnall : ¬ ((injections.map fun inj => inj.bwsKey).all
        (fun q => (keyValIndex all q).isSome) = true) := by
      intro h
      rw [(validateKeys_eq_none_iff _ _).mpr h] at hv
      cases hv
    rw [all_map_comp] at hnall
    simp only [runWrapper, fetchSecretsW, hv, isSpawned]
    exact (Bool.not_eq_true _).mp (fun h => hnall h) |>.symm

/-- C10.  A value-taking flag (one not in `BOOLEAN_FLAGS`) appearing as
the final argument is parsed without error: `parseFlags` assigns it
the boolean value `true`, positional arguments still land in `rest`,
and the flag counts as explicitly provided (`flags.f !== undefined`),
so `set <key> <value> --note` sees `noteProvided = true` with note
value `true`. -/
theorem parseFlags_trailing_value_flag_boolTrue (f : String)
    (hf : BOOLEAN_FLAGS.contains f = false) (pos : List String)
    (hpos : ∀ a ∈ pos, startsWithDashes a = false) :
    parseFlags (pos ++ ["--" ++ f]) = ([(f, FlagVal.boolTrue)], pos)
    ∧ lookupFlag (parseFlags (pos ++ ["--" ++ f])).1 f = some FlagVal.boolTrue
    ∧ flagProvided (parseFlags (pos ++ ["--" ++ f])).1 f = true := by
  have h := parseFlags_trailing f hf pos hpos
  refine ⟨h, ?_, ?_⟩
  · rw [h]
    simp [lookupFlag]
  · rw [h]
    simp [flagProvided, lookupFlag]

/-- Witness for C10: `set MY_KEY my-value --note` parses with
`note = true`, the positionals in `rest`, and `noteProvided` true. -/
theorem parseFlags_trailing_value_flag_boolTrue_witness :
    parseFlags (["MY_KEY", "my-value"] ++ ["--" ++ "note"])
      = ([("note", FlagVal.boolTrue)], ["MY_KEY", "my-value"])
    ∧ lookupFlag (parseFlags (["MY_KEY", "my-value"] ++ ["--" ++ "note"])).1 "note"
      = some FlagVal.boolTrue
    ∧ flagProvided (parseFlags (["MY_KEY", "my-value"] ++ ["--" ++ "note"])).1 "note"
      = true :=
  parseFlags_trailing_value_flag_boolTrue "note" (by decide)
    ["MY_KEY", "my-value"] (by decide)

end SecretsBws
